import Mathlib

/-!
Verification of the `CollectionPathHelper` path tokenizer
(`src/path.Helper.js`).  JavaScript strings are modelled as `List Char`;
each definition below is a direct translation of the corresponding
function in the source file.
-/

set_option maxHeartbeats 1000000

/-- Index of the first occurrence of character `c` in `l`, as `some` index,
or `none` when `c` does not occur.  Building block for JS `String.indexOf`. -/
def findIdxOfChar (c : Char) : List Char → Option Nat
  | [] => none
  | x :: xs => if x = c then some 0 else (findIdxOfChar c xs).map (· + 1)

/-- JS `s.indexOf(c, start)` for a single-character needle: the first index
`≥ start` holding `c`, or `none` (JS `-1`). -/
def indexOfFrom (s : List Char) (c : Char) (start : Nat) : Option Nat :=
  (findIdxOfChar c (s.drop start)).map (· + start)

/-- JS `String.prototype.split` with a single-character separator.
`splitOnChar '.' "" = [""]`, matching JS `''.split('.') == ['']`. -/
def splitOnChar (c : Char) : List Char → List (List Char)
  | [] => [[]]
  | x :: xs =>
    match splitOnChar c xs with
    | [] => [[x]]
    | h :: t => if x = c then [] :: h :: t else (x :: h) :: t

/-- JS `s.replace(pat, '')` for a plain-string pattern: removes the first
occurrence of `pat` from `s` (the empty pattern removes nothing, as in JS). -/
def replaceFirst : List Char → List Char → List Char
  | [], pat => if pat.isPrefixOf ([] : List Char) then ([] : List Char).drop pat.length else []
  | x :: xs, pat =>
    if pat.isPrefixOf (x :: xs) then (x :: xs).drop pat.length
    else x :: replaceFirst xs pat

/-- Fuel-driven worker for `replaceAllSub`. -/
def replaceAllSubFuel : Nat → List Char → List Char → List Char
  | 0, s, _ => s
  | _ + 1, s, [] => s
  | _ + 1, [], _ :: _ => []
  | fuel + 1, x :: xs, p :: ps =>
    if (p :: ps).isPrefixOf (x :: xs) then
      replaceAllSubFuel fuel ((x :: xs).drop (p :: ps).length) (p :: ps)
    else x :: replaceAllSubFuel fuel xs (p :: ps)

/-- JS `s.split(pat).join('')`: removes every (non-overlapping, leftmost)
occurrence of `pat`; the empty pattern splits into characters and re-joins,
which is the identity. -/
def replaceAllSub (s pat : List Char) : List Char :=
  replaceAllSubFuel s.length s pat

/-- Options of `getRemainingString`, with the source defaults
`{discardedStrings: [''], global: false}`. -/
structure GetRemainingStringOptions where
  discardedStrings : List (List Char) := [[]]
  global : Bool := false

/-- Model of `CollectionPathHelper.getRemainingString` (src/path.Helper.js:82-96):
removes each of `options.discardedStrings` from `property`, the first
occurrence only unless `options.global`. -/
def getRemainingString (property : List Char) (options : GetRemainingStringOptions) : List Char :=
  options.discardedStrings.foldl
    (fun p d => if options.global then replaceAllSub p d else replaceFirst p d) property

/-- Result type of `getStartType`: the JS strings `'object'`, `'array'`,
`'unknown'`. -/
inductive StartType where
  | object
  | array
  | unknown
deriving DecidableEq, Repr

/-- Model of `CollectionPathHelper.getStartType` (src/path.Helper.js:103-112) on a
string argument: `'array'` when the first character is `[`, a `]` occurs at
index `≥ 1`, and `substring(0, endBracket)` has no `,` at index `≥ 2`;
`'object'` for any other non-empty string; `'unknown'` for the empty string. -/
def getStartType (path : List Char) : StartType :=
  if 0 < path.length then
    if path.head? = some '[' then
      match indexOfFrom path ']' 1 with
      | some endBracket =>
        if indexOfFrom (path.take endBracket) ',' 2 = none then .array else .object
      | none => .object
    else .object
  else .unknown

/-- Fuel-driven worker for `explodeSegment`; `fuel ≥ seg.length` always
suffices since every loop iteration strips at least one character. -/
def explodeSegmentFuel : Nat → List Char → List (List Char)
  | 0, seg => [seg]
  | fuel + 1, seg =>
    match indexOfFrom seg '[' 1 with
    | none => [seg]
    | some idx =>
      let newFragment := seg.take idx
      newFragment ::
        explodeSegmentFuel fuel (getRemainingString seg { discardedStrings := [newFragment] })

/-- The `while` loop body of `explodePath` applied to one dot-segment:
repeatedly split at the first `[` at index `≥ 1`, emitting the prefix and
stripping it (by first-occurrence removal) from the rest. -/
def explodeSegment (seg : List Char) : List (List Char) :=
  explodeSegmentFuel seg.length seg

/-- Model of `CollectionPathHelper.explodePath` (src/path.Helper.js:119-131): split on
`.`, run the bracket-splitting loop on each dot-segment, then keep only the
fragments `q` with `q.slice(1)` truthy, i.e. of length at least two. -/
def explodePath (path : List Char) : List (List Char) :=
  ((splitOnChar '.' path).foldl (fun result seg => result ++ explodeSegment seg) []).foldl
    (fun result q => if (q.drop 1) ≠ [] then result ++ [q] else result) []

/-- Model of `CollectionPathHelper.implodePath` (src/path.Helper.js:138-150) on an
array of strings: fold the fragments, appending object fragments after a `.`
separator (none when the accumulator is still empty), array fragments
directly, and skipping `unknown` fragments. -/
def implodePath (pathFragments : List (List Char)) : List Char :=
  pathFragments.foldl (fun path fragment =>
    match getStartType fragment with
    | .object => if path = [] then path ++ fragment else path ++ '.' :: fragment
    | .array => path ++ fragment
    | .unknown => path) []

/-- Options of `removePathLevels`, with the source defaults
`{count: 1, termination: 'end'}`; `termination` is the raw JS string. -/
structure RemovePathLevelsOptions where
  count : Nat := 1
  termination : List Char := "end".toList

/-- The start index JS `Array.prototype.splice` actually uses: a negative
`start` is clamped to `max (length + start) 0`, a too-large one to `length`. -/
def jsSpliceActualStart (len : Nat) (start : Int) : Nat :=
  if start < 0 then (max ((len : Int) + start) 0).toNat else min start.toNat len

/-- JS `Array.prototype.splice(start, deleteCount)` viewed functionally:
the array remaining after the removal. -/
def jsSplice {α : Type} (l : List α) (start : Int) (deleteCount : Nat) : List α :=
  l.take (jsSpliceActualStart l.length start) ++
    l.drop (jsSpliceActualStart l.length start + deleteCount)

/-- Model of `CollectionPathHelper.removePathLevels` (src/path.Helper.js:161-176):
explode, splice `count` fragments off the requested end, re-implode.
A `termination` that is neither `'end'` nor `'start'` leaves the fragments
untouched. -/
def removePathLevels (path : List Char) (options : RemovePathLevelsOptions) : List Char :=
  let pathFragments := explodePath path
  let pathFragments :=
    if options.termination = "end".toList then
      jsSplice pathFragments ((pathFragments.length : Int) - (options.count : Int)) options.count
    else if options.termination = "start".toList then
      jsSplice pathFragments 0 options.count
    else pathFragments
  implodePath pathFragments

/-- Options of `getSubPaths`, with the source defaults
`{ignoreRoot: false, ignoreFull: false}`. -/
structure GetSubPathsOptions where
  ignoreRoot : Bool := false
  ignoreFull : Bool := false

/-- Model of `CollectionPathHelper.getSubPaths` (src/path.Helper.js:257-276) on a
string argument: start from `['']` (unless `ignoreRoot`), push the implosion
of every fragment prefix, and pop the last entry when `ignoreFull` and the
list is non-empty. -/
def getSubPaths (property : List Char) (options : GetSubPathsOptions) : List (List Char) :=
  let result1 : List (List Char) := if options.ignoreRoot then [] else [[]]
  let stepped := (explodePath property).foldl
    (fun (st : List (List Char) × List (List Char)) frag =>
      (st.1 ++ [frag], st.2 ++ [implodePath (st.1 ++ [frag])]))
    ([], [])
  let result := result1 ++ stepped.2
  if 0 < result.length ∧ options.ignoreFull then result.dropLast else result

/-- Options of `replacePathArraysWithString`, with the source default
`{string: ''}`. -/
structure ReplacePathArraysOptions where
  string : List Char := []

/-- Model of `CollectionPathHelper.replacePathArraysWithString`
(src/path.Helper.js:285-293): map every `array`-classified fragment of the
exploded path to `options.string`, keep the rest, and re-implode. -/
def replacePathArraysWithString (property : List Char) (options : ReplacePathArraysOptions) :
    List Char :=
  implodePath ((explodePath property).map (fun ep =>
    if getStartType ep = .array then options.string else ep))

/-- A JavaScript value, as far as the dynamic checks of the source need:
`typeof v === 'string'` is `vstr`, `Array.isArray` is `varr`, and the
remaining constructors cover the non-string/non-array arguments the
error-handling claims quantify over. -/
inductive JSValue where
  | vundefined
  | vnull
  | vbool (b : Bool)
  | vnum (n : Int)
  | vstr (s : List Char)
  | varr (elems : List JSValue)
  | vobj (fields : List (List Char × JSValue))

/-- Model of `CollectionPathHelper.getStartType` including its `typeof` guard: a
non-string argument classifies as `'unknown'`. -/
def getStartTypeVal : JSValue → StartType
  | .vstr s => getStartType s
  | _ => .unknown

/-- Model of `CollectionPathHelper.implodePath` (src/path.Helper.js:138-150) on an
arbitrary JS array: fragments whose `getStartType` is neither `'object'` nor
`'array'` fall through the `switch` and leave the accumulator untouched. -/
def implodePathVal (pathFragments : List JSValue) : List Char :=
  pathFragments.foldl (fun path fragment =>
    match fragment with
    | .vstr s =>
      match getStartType s with
      | .object => if path = [] then path ++ s else path ++ '.' :: s
      | .array => path ++ s
      | .unknown => path
    | _ => path) []

/-- JS `typeof v === 'string'`. -/
def isStringVal : JSValue → Bool
  | .vstr _ => true
  | _ => false

/-- JS `Array.isArray(v)`. -/
def isArrVal : JSValue → Bool
  | .varr _ => true
  | _ => false

/-- JS `typeof v === 'string' && v.length > 0`. -/
def isNonEmptyString : JSValue → Bool
  | .vstr s => !s.isEmpty
  | _ => false

/-- JS `Array.isArray(v) && v.length > 0`. -/
def isNonEmptyArray : JSValue → Bool
  | .varr l => !l.isEmpty
  | _ => false

/-- JS `path.startsWith('.')` (evaluated only on strings in the source). -/
def jsStartsWithDot : JSValue → Bool
  | .vstr ('.' :: _) => true
  | _ => false

/-- JS `path.replace('.', '')` on a string path: removes the first `.`. -/
def jsStripFirstDot : JSValue → JSValue
  | .vstr s => .vstr (replaceFirst s ['.'])
  | v => v

/-- The string `'undefined'` that `get` passes to `lodash/get` as its
not-found sentinel. -/
def undefSentinel : List Char := "undefined".toList

/-- JS `v === 'undefined'` for the sentinel comparison in `get`. -/
def isUndefSentinel : JSValue → Bool
  | .vstr s => s == undefSentinel
  | _ => false

/-- First binding of `key` in a JS object's field list. -/
def lookupField : List (List Char × JSValue) → List Char → Option JSValue
  | [], _ => none
  | (k, v) :: rest, key => if k == key then some v else lookupField rest key

/-- The field name `'length'`. -/
def lengthKey : List Char := "length".toList

/-- JS property access `v.length`: a `TypeError` on `null`/`undefined`,
the actual length for strings and arrays, the `length` field (or
`undefined`) for objects, and `undefined` for the other primitives. -/
def jsLengthProp : JSValue → Except Unit JSValue
  | .vnull => .error ()
  | .vundefined => .error ()
  | .vstr s => .ok (.vnum (s.length : Int))
  | .varr l => .ok (.vnum (l.length : Int))
  | .vnum _ => .ok .vundefined
  | .vbool _ => .ok .vundefined
  | .vobj fields => .ok ((lookupField fields lengthKey).getD .vundefined)

/-- JS strict equality `v === n` against a number literal. -/
def jsStrictEqNum (v : JSValue) (n : Int) : Bool :=
  match v with
  | .vnum m => m == n
  | _ => false

/-- The path value `get` hands to the first `lodash/get` call: a string path
with a leading dot has that first dot removed (`path.replace('.', '')`). -/
def getDirectPathArg (path : JSValue) : JSValue :=
  if isStringVal path && jsStartsWithDot path then jsStripFirstDot path else path

/-- The tail of `get` after the guard: return the first lookup's result
unless it is the `'undefined'` sentinel, in which case retry with the
exploded path.  A non-string `path1` reaching `explodePath` would call
`path.split`, a `TypeError`, modelled as `.error`. -/
def getRetry (lodashGet : JSValue → JSValue → JSValue → JSValue)
    (collection path1 result : JSValue) : Except Unit JSValue :=
  if isUndefSentinel result then
    match path1 with
    | .vstr s =>
      .ok (lodashGet collection (.varr ((explodePath s).map JSValue.vstr)) (.vstr undefSentinel))
    | _ => .error ()
  else .ok result

/-- Model of `CollectionPathHelper.get` (src/path.Helper.js:206-223), parametric in
the external `lodash/get`.  Non-string/non-array (or empty) paths return the
collection; a leading dot of a string path is stripped; the lookup runs with
the `'undefined'` sentinel as default and, when it fails, retries with the
exploded path. -/
def CollectionPathHelper.get (lodashGet : JSValue → JSValue → JSValue → JSValue)
    (collection path def_ : JSValue) : Except Unit JSValue :=
  if !(isNonEmptyString path || isNonEmptyArray path) then .ok collection
  else
    getRetry lodashGet collection (getDirectPathArg path)
      (lodashGet collection (getDirectPathArg path) (.vstr undefSentinel))

/-- Model of `CollectionPathHelper.set` (src/path.Helper.js:232-241), parametric in
the external `lodash/set`.  The first statement evaluates `path.length`,
which throws on `null`/`undefined`; `path.length === 0` returns `value`;
then non-string/non-array (or empty) paths return the collection; a leading
dot of a string path is stripped before delegating. -/
def CollectionPathHelper.set (lodashSet : JSValue → JSValue → JSValue → JSValue)
    (collection path value : JSValue) : Except Unit JSValue :=
  match jsLengthProp path with
  | .error e => .error e
  | .ok lenV =>
    if jsStrictEqNum lenV 0 then .ok value
    else if !(isNonEmptyString path || isNonEmptyArray path) then .ok collection
    else
      let path1 := if isStringVal path && jsStartsWithDot path then jsStripFirstDot path else path
      .ok (lodashSet collection path1 value)

/-- Invariant of every fragment emitted by `explodePath`: at least two
characters (the `q.slice(1)` filter), no `.` (fragments come from
dot-segments), and no `[` past position 0 (the loop cuts at the first such
bracket). -/
def GoodFrag (f : List Char) : Prop :=
  2 ≤ f.length ∧ '.' ∉ f ∧ '[' ∉ f.drop 1

/-- The contribution of a fragment list to `implodePath` once the
accumulator is non-empty: object fragments arrive behind a dot, array
fragments directly, `unknown` ones not at all. -/
def implodeTail (fragments : List (List Char)) : List Char :=
  (fragments.map (fun f =>
    match getStartType f with
    | .object => '.' :: f
    | .array => f
    | .unknown => [])).flatten

/-! ### Basic lemmas about the string utilities -/

theorem isPrefixOf_length_le {p s : List Char} (h : p.isPrefixOf s) : p.length ≤ s.length := by
  induction p generalizing s with
  | nil => simp
  | cons a as ih =>
    cases s with
    | nil => simp [List.isPrefixOf] at h
    | cons b bs =>
      simp only [List.isPrefixOf, Bool.and_eq_true] at h
      simpa using ih h.2

theorem take_isPrefixOf (s : List Char) (n : Nat) : (s.take n).isPrefixOf s := by
  induction s generalizing n with
  | nil => simp [List.isPrefixOf]
  | cons x xs ih =>
    cases n with
    | zero => simp [List.isPrefixOf]
    | succ m => simpa [List.isPrefixOf] using ih m

theorem replaceFirst_of_isPrefixOf {s pat : List Char} (h : pat.isPrefixOf s) :
    replaceFirst s pat = s.drop pat.length := by
  cases s with
  | nil => simp [replaceFirst, h]
  | cons x xs => simp [replaceFirst, h]

theorem replaceFirst_take (s : List Char) (n : Nat) :
    replaceFirst s (s.take n) = s.drop n := by
  rw [replaceFirst_of_isPrefixOf (take_isPrefixOf s n)]
  rcases Nat.le_total n s.length with h | h
  · simp [List.length_take, Nat.min_eq_left h]
  · rw [List.length_take, Nat.min_eq_right h, List.drop_length,
      List.drop_eq_nil_of_le h]

theorem getRemainingString_single (s d : List Char) :
    getRemainingString s { discardedStrings := [d] } = replaceFirst s d := rfl

/-! ### Lemmas about `findIdxOfChar` and `indexOfFrom` -/

theorem findIdxOfChar_eq_none_iff {c : Char} {l : List Char} :
    findIdxOfChar c l = none ↔ c ∉ l := by
  induction l with
  | nil => simp [findIdxOfChar]
  | cons x xs ih =>
    by_cases hx : x = c
    · subst hx; simp [findIdxOfChar]
    · simp [findIdxOfChar, hx, ih, Option.map_eq_none', Ne.symm hx]

theorem findIdxOfChar_append {c : Char} {x : List Char} (hx : c ∉ x) (y : List Char) :
    findIdxOfChar c (x ++ c :: y) = some x.length := by
  induction x with
  | nil => simp [findIdxOfChar]
  | cons a as ih =>
    have ha : a ≠ c := fun h => hx (h ▸ List.mem_cons_self a as)
    have has : c ∉ as := fun h => hx (List.mem_cons_of_mem a h)
    simp [findIdxOfChar, ha, ih has]

theorem findIdxOfChar_lt_length {c : Char} {l : List Char} {n : Nat}
    (h : findIdxOfChar c l = some n) : n < l.length := by
  induction l generalizing n with
  | nil => simp [findIdxOfChar] at h
  | cons x xs ih =>
    by_cases hx : x = c
    · subst hx; simp [findIdxOfChar] at h; subst h; simp
    · simp only [findIdxOfChar, hx, if_false, Option.map_eq_some'] at h
      obtain ⟨k, hk, rfl⟩ := h
      have := ih hk
      simp; omega

theorem findIdxOfChar_not_mem_take {c : Char} {l : List Char} {n : Nat}
    (h : findIdxOfChar c l = some n) : c ∉ l.take n := by
  induction l generalizing n with
  | nil => simp [findIdxOfChar] at h
  | cons x xs ih =>
    by_cases hx : x = c
    · subst hx; simp [findIdxOfChar] at h; subst h; simp
    · simp only [findIdxOfChar, hx, if_false, Option.map_eq_some'] at h
      obtain ⟨k, hk, rfl⟩ := h
      simp only [List.take_succ_cons, List.mem_cons, not_or]
      exact ⟨Ne.symm hx, ih hk⟩

theorem findIdxOfChar_get {c : Char} {l : List Char} {n : Nat}
    (h : findIdxOfChar c l = some n) : l.get? n = some c := by
  induction l generalizing n with
  | nil => simp [findIdxOfChar] at h
  | cons x xs ih =>
    by_cases hx : x = c
    · subst hx; simp [findIdxOfChar] at h; subst h; rfl
    · simp only [findIdxOfChar, hx, if_false, Option.map_eq_some'] at h
      obtain ⟨k, hk, rfl⟩ := h
      simpa using ih hk

theorem findIdxOfChar_eq_some_iff {c : Char} {l : List Char} {n : Nat} :
    findIdxOfChar c l = some n ↔
      l.get? n = some c ∧ ∀ m, m < n → l.get? m ≠ some c := by
  constructor
  · intro h
    refine ⟨findIdxOfChar_get h, fun m hm hc => ?_⟩
    have : c ∈ l.take n := by
      rw [List.mem_iff_get?]
      exact ⟨m, by rw [List.get?_take hm]; exact hc⟩
    exact findIdxOfChar_not_mem_take h this
  · intro ⟨hget, hmin⟩
    induction l generalizing n with
    | nil => simp at hget
    | cons x xs ih =>
      by_cases hx : x = c
      · subst hx
        cases n with
        | zero => simp [findIdxOfChar]
        | succ m => exact absurd rfl (hmin 0 (Nat.succ_pos m))
      · cases n with
        | zero => simp at hget; exact absurd hget hx
        | succ m =>
          simp only [findIdxOfChar, hx, if_false, Option.map_eq_some']
          refine ⟨m, ih ?_ ?_, rfl⟩
          · simpa using hget
          · intro k hk
            have := hmin (k + 1) (by omega)
            simpa using this

theorem indexOfFrom_one_none_iff {s : List Char} {c : Char} :
    indexOfFrom s c 1 = none ↔ c ∉ s.drop 1 := by
  simp [indexOfFrom, Option.map_eq_none', findIdxOfChar_eq_none_iff]

theorem indexOfFrom_one_some {s : List Char} {c : Char} {j : Nat}
    (h : indexOfFrom s c 1 = some j) :
    ∃ n, findIdxOfChar c (s.drop 1) = some n ∧ j = n + 1 := by
  simp only [indexOfFrom, Option.map_eq_some'] at h
  obtain ⟨n, hn, hj⟩ := h
  exact ⟨n, hn, hj.symm⟩

theorem indexOfFrom_append_bracket {g : List Char} (hg : g ≠ [])
    (hg2 : '[' ∉ g.drop 1) {y : List Char} (hy : y.head? = some '[') :
    indexOfFrom (g ++ y) '[' 1 = some g.length := by
  cases g with
  | nil => exact absurd rfl hg
  | cons x xs =>
    cases y with
    | nil => simp at hy
    | cons b bs =>
      simp only [List.head?_cons, Option.some.injEq] at hy
      subst hy
      simp only [List.drop_one, List.tail_cons] at hg2
      simp [indexOfFrom, List.cons_append, findIdxOfChar_append hg2 bs]

/-! ### The bracket-splitting loop -/

theorem explodeSegmentFuel_congr :
    ∀ (f1 f2 : Nat) (s : List Char), s.length ≤ f1 → s.length ≤ f2 →
      explodeSegmentFuel f1 s = explodeSegmentFuel f2 s := by
  intro f1
  induction f1 with
  | zero =>
    intro f2 s h1 _
    have : s = [] := List.length_eq_zero.mp (Nat.le_zero.mp h1)
    subst this
    cases f2 with
    | zero => rfl
    | succ m => simp [explodeSegmentFuel, indexOfFrom, findIdxOfChar]
  | succ k ih =>
    intro f2 s h1 h2
    cases f2 with
    | zero =>
      have : s = [] := List.length_eq_zero.mp (Nat.le_zero.mp h2)
      subst this
      simp [explodeSegmentFuel, indexOfFrom, findIdxOfChar]
    | succ m =>
      simp only [explodeSegmentFuel]
      cases hidx : indexOfFrom s '[' 1 with
      | none => rfl
      | some idx =>
        obtain ⟨n, hn, rfl⟩ := indexOfFrom_one_some hidx
        have hlt : n < (s.drop 1).length := findIdxOfChar_lt_length hn
        have hle : n + 1 ≤ s.length := by
          rcases s with _ | ⟨_, _⟩ <;> simp at hlt ⊢ <;> omega
        dsimp only
        rw [getRemainingString_single, replaceFirst_take]
        have hdl : (s.drop (n + 1)).length ≤ k := by
          rw [List.length_drop]; omega
        have hdm : (s.drop (n + 1)).length ≤ m := by
          rw [List.length_drop]; omega
        rw [ih m (s.drop (n + 1)) hdl hdm]

theorem explodeSegment_eq (s : List Char) :
    explodeSegment s =
      match indexOfFrom s '[' 1 with
      | none => [s]
      | some idx => s.take idx :: explodeSegment (s.drop idx) := by
  unfold explodeSegment
  cases hidx : indexOfFrom s '[' 1 with
  | none =>
    cases hs : s.length with
    | zero => simp [explodeSegmentFuel]
    | succ k => simp [explodeSegmentFuel, hidx]
  | some idx =>
    obtain ⟨n, hn, rfl⟩ := indexOfFrom_one_some hidx
    have hlt : n < (s.drop 1).length := findIdxOfChar_lt_length hn
    have hle : n + 1 ≤ s.length := by
      rcases s with _ | ⟨_, _⟩ <;> simp at hlt ⊢ <;> omega
    have hs : ∃ k, s.length = k + 1 := ⟨s.length - 1, by omega⟩
    obtain ⟨k, hk⟩ := hs
    rw [hk]
    simp only [explodeSegmentFuel, hidx]
    rw [getRemainingString_single, replaceFirst_take]
    have h1 : (s.drop (n + 1)).length ≤ k := by rw [List.length_drop]; omega
    exact congrArg _ (explodeSegmentFuel_congr k (s.drop (n + 1)).length _ h1 (Nat.le_refl _))

theorem take_succ_drop_one (s : List Char) (n : Nat) :
    (s.take (n + 1)).drop 1 = (s.drop 1).take n := by
  cases s with
  | nil => simp
  | cons x xs => simp

theorem explodeSegmentFuel_good :
    ∀ (fuel : Nat) (s : List Char), s.length ≤ fuel →
      ∀ f ∈ explodeSegmentFuel fuel s, f ⊆ s ∧ '[' ∉ f.drop 1 := by
  intro fuel
  induction fuel with
  | zero =>
    intro s h1 f hf
    have : s = [] := List.length_eq_zero.mp (Nat.le_zero.mp h1)
    subst this
    simp [explodeSegmentFuel] at hf
    subst hf
    simp
  | succ k ih =>
    intro s h1 f hf
    simp only [explodeSegmentFuel] at hf
    cases hidx : indexOfFrom s '[' 1 with
    | none =>
      rw [hidx] at hf
      simp at hf
      subst hf
      exact ⟨fun a ha => ha, indexOfFrom_one_none_iff.mp hidx⟩
    | some idx =>
      rw [hidx] at hf
      obtain ⟨n, hn, rfl⟩ := indexOfFrom_one_some hidx
      have hlt : n < (s.drop 1).length := findIdxOfChar_lt_length hn
      have hle : n + 1 ≤ s.length := by
        rcases s with _ | ⟨_, _⟩
        · simp at hlt
        · simp at hlt ⊢; omega
      simp only [getRemainingString_single, replaceFirst_take, List.mem_cons] at hf
      rcases hf with rfl | hf
      · refine ⟨List.take_subset _ _, ?_⟩
        rw [take_succ_drop_one]
        intro hmem
        exact findIdxOfChar_not_mem_take hn hmem
      · have hdl : (s.drop (n + 1)).length ≤ k := by rw [List.length_drop]; omega
        obtain ⟨hsub, hbr⟩ := ih (s.drop (n + 1)) hdl f hf
        exact ⟨fun a ha => List.drop_subset _ _ (hsub ha), hbr⟩

theorem explodeSegment_good {s f : List Char} (hf : f ∈ explodeSegment s) :
    f ⊆ s ∧ '[' ∉ f.drop 1 :=
  explodeSegmentFuel_good s.length s (Nat.le_refl _) f hf

theorem explodeSegment_concat :
    ∀ (as : List (List Char)), (∀ a ∈ as, a.head? = some '[' ∧ '[' ∉ a.drop 1) →
      ∀ g : List Char, g ≠ [] → '[' ∉ g.drop 1 →
        explodeSegment (g ++ as.flatten) = g :: as := by
  intro as
  induction as with
  | nil =>
    intro _ g hg hg2
    rw [List.flatten_nil, List.append_nil, explodeSegment_eq]
    have : indexOfFrom g '[' 1 = none := indexOfFrom_one_none_iff.mpr hg2
    rw [this]
  | cons a as ih =>
    intro ha g hg hg2
    have haHead : a.head? = some '[' := (ha a (List.mem_cons_self a as)).1
    have haBr : '[' ∉ a.drop 1 := (ha a (List.mem_cons_self a as)).2
    have haNe : a ≠ [] := by
      intro h; rw [h] at haHead; simp at haHead
    have hflat : (a :: as).flatten = a ++ as.flatten := by simp
    rw [hflat, ← List.append_assoc, explodeSegment_eq]
    have hidx : indexOfFrom (g ++ a ++ as.flatten) '[' 1 = some g.length := by
      rw [List.append_assoc]
      exact indexOfFrom_append_bracket hg hg2 (by
        cases a with
        | nil => simp at haHead
        | cons b bs => simp at haHead ⊢; simp [haHead])
    rw [hidx]
    dsimp only
    have htake : (g ++ a ++ as.flatten).take g.length = g := by
      rw [List.append_assoc]
      exact List.take_left g (a ++ as.flatten)
    have hdrop : (g ++ a ++ as.flatten).drop g.length = a ++ as.flatten := by
      rw [List.append_assoc]
      exact List.drop_left g (a ++ as.flatten)
    rw [htake, hdrop, ih (fun x hx => ha x (List.mem_cons_of_mem a hx)) a haNe haBr]

/-! ### `splitOnChar` lemmas -/

theorem splitOnChar_ne_nil (c : Char) (s : List Char) : splitOnChar c s ≠ [] := by
  induction s with
  | nil => simp [splitOnChar]
  | cons x xs ih =>
    simp only [splitOnChar]
    cases h : splitOnChar c xs with
    | nil => simp
    | cons hh tt =>
      by_cases hx : x = c
      · simp [hx]
      · simp [hx]

theorem splitOnChar_not_mem {c : Char} {s : List Char} :
    ∀ t ∈ splitOnChar c s, c ∉ t := by
  induction s with
  | nil => intro t ht; simp [splitOnChar] at ht; subst ht; simp
  | cons x xs ih =>
    intro t ht
    simp only [splitOnChar] at ht
    cases h : splitOnChar c xs with
    | nil => exact absurd h (splitOnChar_ne_nil c xs)
    | cons hh tt =>
      rw [h] at ht
      by_cases hx : x = c
      · simp only [hx, if_true, List.mem_cons] at ht
        rcases ht with rfl | ht
        · simp
        · exact ih t (h ▸ List.mem_cons.mpr ht)
      · simp only [hx, if_false, List.mem_cons] at ht
        rcases ht with rfl | ht
        · intro hc
          rcases List.mem_cons.mp hc with rfl | hc
          · exact hx rfl
          · exact ih hh (h ▸ List.mem_cons_self hh tt) hc
        · exact ih t (h ▸ List.mem_cons_of_mem hh ht)

theorem splitOnChar_of_not_mem {c : Char} {s : List Char} (h : c ∉ s) :
    splitOnChar c s = [s] := by
  induction s with
  | nil => rfl
  | cons x xs ih =>
    have hx : x ≠ c := fun hh => h (hh ▸ List.mem_cons_self x xs)
    have hxs : c ∉ xs := fun hh => h (List.mem_cons_of_mem x hh)
    simp only [splitOnChar, ih hxs]
    simp [hx]

theorem splitOnChar_append_cons {c : Char} {x : List Char} (hx : c ∉ x) (y : List Char) :
    splitOnChar c (x ++ c :: y) = x :: splitOnChar c y := by
  induction x with
  | nil =>
    simp only [List.nil_append, splitOnChar]
    cases h : splitOnChar c y with
    | nil => exact absurd h (splitOnChar_ne_nil c y)
    | cons hh tt => simp
  | cons a as ih =>
    have ha : a ≠ c := fun hh => hx (hh ▸ List.mem_cons_self a as)
    have has : c ∉ as := fun hh => hx (List.mem_cons_of_mem a hh)
    simp only [List.cons_append, splitOnChar, List.append_eq]
    rw [ih has]
    simp [ha]

/-! ### A normal form for `explodePath` -/

theorem foldl_append_eq_flatMap {α β : Type} (l : List α) (f : α → List β) :
    ∀ init : List β, l.foldl (fun result a => result ++ f a) init = init ++ l.flatMap f := by
  induction l with
  | nil => intro init; simp
  | cons a as ih => intro init; simp [ih, List.append_assoc]

theorem foldl_filter_eq (l : List (List Char)) :
    ∀ init : List (List Char),
      l.foldl (fun result q => if (q.drop 1) ≠ [] then result ++ [q] else result) init =
        init ++ l.filter (fun q => decide ((q.drop 1) ≠ [])) := by
  induction l with
  | nil => intro init; simp
  | cons a as ih =>
    intro init
    by_cases h : (a.drop 1) ≠ []
    · simp only [List.foldl_cons, if_pos h, ih, List.filter_cons, decide_eq_true h]
      simp [List.append_assoc]
    · simp only [List.foldl_cons, if_neg h, ih, List.filter_cons]
      rw [decide_eq_false h]
      simp

theorem explodePath_eq (p : List Char) :
    explodePath p = ((splitOnChar '.' p).flatMap explodeSegment).filter
      (fun q => decide ((q.drop 1) ≠ [])) := by
  unfold explodePath
  rw [foldl_append_eq_flatMap, List.nil_append, foldl_filter_eq, List.nil_append]

theorem drop_one_ne_nil_iff (q : List Char) : (q.drop 1) ≠ [] ↔ 2 ≤ q.length := by
  cases q with
  | nil => simp
  | cons x xs => cases xs with
    | nil => simp
    | cons y ys => simp

theorem goodFrag_of_mem_explodePath {p f : List Char} (hf : f ∈ explodePath p) :
    GoodFrag f := by
  rw [explodePath_eq, List.mem_filter] at hf
  obtain ⟨hmem, hlen⟩ := hf
  rw [List.mem_flatMap] at hmem
  obtain ⟨seg, hseg, hfseg⟩ := hmem
  obtain ⟨hsub, hbr⟩ := explodeSegment_good hfseg
  refine ⟨(drop_one_ne_nil_iff f).mp (of_decide_eq_true hlen), ?_, hbr⟩
  intro hdot
  exact splitOnChar_not_mem seg hseg (hsub hdot)

/-! ### Classification facts -/

theorem getStartType_ne_unknown {s : List Char} (h : s ≠ []) :
    getStartType s ≠ StartType.unknown := by
  unfold getStartType
  rw [if_pos (List.length_pos.mpr h)]
  by_cases hh : s.head? = some '['
  · rw [if_pos hh]
    cases hidx : indexOfFrom s ']' 1 with
    | none => simp
    | some j =>
      by_cases hc : indexOfFrom (s.take j) ',' 2 = none
      · simp [hc]
      · simp [hc]
  · rw [if_neg hh]; simp

theorem getStartType_array_head {s : List Char} (h : getStartType s = StartType.array) :
    s.head? = some '[' := by
  unfold getStartType at h
  by_cases hl : 0 < s.length
  · rw [if_pos hl] at h
    by_cases hh : s.head? = some '['
    · exact hh
    · rw [if_neg hh] at h; simp at h
  · rw [if_neg hl] at h; simp at h

theorem getStartType_object_of_ne {s : List Char} (h : s ≠ [])
    (ha : getStartType s ≠ StartType.array) : getStartType s = StartType.object := by
  cases hs : getStartType s with
  | object => rfl
  | array => exact absurd hs ha
  | unknown => exact absurd hs (getStartType_ne_unknown h)

/-! ### Structure of `implodePath` -/

theorem implodeTail_cons (f : List Char) (L : List (List Char)) :
    implodeTail (f :: L) =
      (match getStartType f with
       | StartType.object => '.' :: f
       | StartType.array => f
       | StartType.unknown => []) ++ implodeTail L := by
  simp [implodeTail]

theorem implodeTail_append (A B : List (List Char)) :
    implodeTail (A ++ B) = implodeTail A ++ implodeTail B := by
  simp [implodeTail]

theorem implodeTail_of_array {A : List (List Char)}
    (h : ∀ a ∈ A, getStartType a = StartType.array) : implodeTail A = A.flatten := by
  induction A with
  | nil => rfl
  | cons a as ih =>
    rw [implodeTail_cons, h a (List.mem_cons_self a as), List.flatten_cons,
      ih (fun x hx => h x (List.mem_cons_of_mem a hx))]

theorem implodePath_foldl (L : List (List Char)) :
    ∀ p : List Char, p ≠ [] →
      L.foldl (fun path fragment =>
        match getStartType fragment with
        | StartType.object => if path = [] then path ++ fragment else path ++ '.' :: fragment
        | StartType.array => path ++ fragment
        | StartType.unknown => path) p = p ++ implodeTail L := by
  induction L with
  | nil => intro p _; simp [implodeTail]
  | cons f L ih =>
    intro p hp
    rw [List.foldl_cons, implodeTail_cons]
    cases hf : getStartType f with
    | object =>
      simp only [hf]
      rw [if_neg hp, ih (p ++ '.' :: f) (by simp), List.append_assoc]
    | array =>
      simp only [hf]
      rw [ih (p ++ f) (by simp [hp]), List.append_assoc]
    | unknown =>
      simp only [hf]
      rw [ih p hp, List.nil_append]

theorem implodePath_cons_good {f : List Char} (hf : GoodFrag f) (L : List (List Char)) :
    implodePath (f :: L) = f ++ implodeTail L := by
  have hne : f ≠ [] := by
    intro h
    have := hf.1
    rw [h] at this
    simp at this
  unfold implodePath
  rw [List.foldl_cons]
  cases hft : getStartType f with
  | object =>
    simp only [hft, if_true, List.nil_append]
    exact implodePath_foldl L f hne
  | array =>
    simp only [hft, List.nil_append]
    exact implodePath_foldl L f hne
  | unknown => exact absurd hft (getStartType_ne_unknown hne)

theorem dropWhile_head_false {α : Type} (P : α → Bool) :
    ∀ (l : List α) (x : α) (xs : List α), l.dropWhile P = x :: xs → P x = false := by
  intro l
  induction l with
  | nil => intro x xs h; simp [List.dropWhile] at h
  | cons a as ih =>
    intro x xs h
    by_cases ha : P a
    · rw [List.dropWhile_cons_of_pos ha] at h
      exact ih x xs h
    · rw [List.dropWhile_cons_of_neg ha] at h
      obtain ⟨rfl, _⟩ := List.cons.injEq a as x xs ▸ h
      · exact Bool.of_not_eq_true ha

/-! ### The round-trip theorem -/

theorem filter_of_good {l : List (List Char)} (h : ∀ x ∈ l, GoodFrag x) :
    l.filter (fun q => decide ((q.drop 1) ≠ [])) = l := by
  rw [List.filter_eq_self]
  intro a ha
  exact decide_eq_true ((drop_one_ne_nil_iff a).mpr (h a ha).1)

theorem dot_not_mem_concat {f : List Char} (hf : '.' ∉ f) {A : List (List Char)}
    (hA : ∀ a ∈ A, '.' ∉ a) : '.' ∉ f ++ A.flatten := by
  intro h
  rcases List.mem_append.mp h with h | h
  · exact hf h
  · obtain ⟨a, haA, hc⟩ := List.mem_flatten.mp h
    exact hA a haA hc

theorem goodFrag_ne_nil {f : List Char} (hf : GoodFrag f) : f ≠ [] := by
  intro h
  have := hf.1
  rw [h] at this
  simp at this

theorem explodePath_single {f : List Char} (hf : GoodFrag f) : explodePath f = [f] := by
  have hne : f ≠ [] := goodFrag_ne_nil hf
  rw [explodePath_eq, splitOnChar_of_not_mem hf.2.1]
  have hseg : explodeSegment f = [f] := by
    have := explodeSegment_concat [] (by simp) f hne hf.2.2
    simpa using this
  simp only [List.flatMap_cons, List.flatMap_nil, List.append_nil, hseg]
  exact filter_of_good (by
    intro x hx
    rcases List.mem_cons.mp hx with rfl | hx
    · exact hf
    · simp at hx)

theorem explode_implode_aux :
    ∀ (N : Nat) (L : List (List Char)), L.length ≤ N → (∀ x ∈ L, GoodFrag x) →
      ∀ f : List Char, GoodFrag f → explodePath (f ++ implodeTail L) = f :: L := by
  intro N
  induction N with
  | zero =>
    intro L hlen _ f hf
    have : L = [] := List.length_eq_zero.mp (Nat.le_zero.mp hlen)
    subst this
    show explodePath (f ++ implodeTail []) = [f]
    have himp : implodeTail [] = [] := rfl
    rw [himp, List.append_nil]
    exact explodePath_single hf
  | succ N ih =>
    intro L hlen hL f hf
    set P : List Char → Bool := fun x => decide (getStartType x = StartType.array) with hP
    have hsplit : L.takeWhile P ++ L.dropWhile P = L := List.takeWhile_append_dropWhile P L
    have hA : ∀ a ∈ L.takeWhile P, getStartType a = StartType.array := by
      intro a ha
      have hPa : P a = true := List.mem_takeWhile_imp ha
      rw [hP] at hPa
      exact of_decide_eq_true hPa
    have hAmem : ∀ a ∈ L.takeWhile P, GoodFrag a := by
      intro a ha
      exact hL a (hsplit ▸ List.mem_append.mpr (Or.inl ha))
    have hfne : f ≠ [] := goodFrag_ne_nil hf
    have hdotx : '.' ∉ f ++ (L.takeWhile P).flatten :=
      dot_not_mem_concat hf.2.1 (fun a ha => (hAmem a ha).2.1)
    have hseg : explodeSegment (f ++ (L.takeWhile P).flatten) = f :: L.takeWhile P :=
      explodeSegment_concat (L.takeWhile P)
        (fun a ha => ⟨getStartType_array_head (hA a ha), (hAmem a ha).2.2⟩) f hfne hf.2.2
    have hgood : ∀ x ∈ f :: L.takeWhile P, GoodFrag x := by
      intro x hx
      rcases List.mem_cons.mp hx with rfl | hx
      · exact hf
      · exact hAmem x hx
    cases hR : L.dropWhile P with
    | nil =>
      have hLA : L = L.takeWhile P := by
        conv_lhs => rw [← hsplit, hR]
        rw [List.append_nil]
      rw [hLA, implodeTail_of_array hA, explodePath_eq, splitOnChar_of_not_mem hdotx]
      simp only [List.flatMap_cons, List.flatMap_nil, List.append_nil, hseg]
      exact filter_of_good hgood
    | cons o R' =>
      have hoF : P o = false := dropWhile_head_false P L o R' hR
      have hoMem : o ∈ L := by
        rw [← hsplit, hR]
        exact List.mem_append.mpr (Or.inr (List.mem_cons_self o R'))
      have hoGF : GoodFrag o := hL o hoMem
      have hone : o ≠ [] := goodFrag_ne_nil hoGF
      have hoObj : getStartType o = StartType.object := by
        apply getStartType_object_of_ne hone
        intro harr
        rw [hP] at hoF
        simp [harr] at hoF
      have hTail : implodeTail L = (L.takeWhile P).flatten ++ '.' :: (o ++ implodeTail R') := by
        conv_lhs => rw [← hsplit, hR]
        rw [implodeTail_append, implodeTail_of_array hA, implodeTail_cons, hoObj]
        simp
      have hstr : f ++ implodeTail L =
          (f ++ (L.takeWhile P).flatten) ++ '.' :: (o ++ implodeTail R') := by
        rw [hTail, List.append_assoc]
      rw [hstr, explodePath_eq, splitOnChar_append_cons hdotx, List.flatMap_cons,
        List.filter_append, hseg, filter_of_good hgood]
      have h2 : ((splitOnChar '.' (o ++ implodeTail R')).flatMap explodeSegment).filter
          (fun q => decide ((q.drop 1) ≠ [])) = explodePath (o ++ implodeTail R') :=
        (explodePath_eq _).symm
      rw [h2]
      have hR'len : R'.length ≤ N := by
        have hlen2 : L.length = (L.takeWhile P).length + (R'.length + 1) := by
          conv_lhs => rw [← hsplit, hR]
          simp [List.length_append]
        omega
      have hR'GF : ∀ x ∈ R', GoodFrag x := by
        intro x hx
        apply hL
        rw [← hsplit, hR]
        exact List.mem_append.mpr (Or.inr (List.mem_cons_of_mem o hx))
      rw [ih R' hR'len hR'GF o hoGF, List.cons_append, ← hR, hsplit]

theorem explode_implode_id {L : List (List Char)} (hL : ∀ x ∈ L, GoodFrag x) :
    explodePath (implodePath L) = L := by
  cases L with
  | nil => decide
  | cons f L' =>
    rw [implodePath_cons_good (hL f (List.mem_cons_self f L')) L']
    exact explode_implode_aux L'.length L' (Nat.le_refl _)
      (fun x hx => hL x (List.mem_cons_of_mem f hx)) f (hL f (List.mem_cons_self f L'))

/-! ### The classifier rule, stated through character indices -/

theorem getStartType_unknown_iff (s : List Char) :
    getStartType s = StartType.unknown ↔ s = [] := by
  constructor
  · intro h
    by_contra hne
    exact getStartType_ne_unknown hne h
  · intro h
    subst h
    rfl

theorem indexOfFrom_one_iff {s : List Char} {c : Char} {j : Nat} :
    indexOfFrom s c 1 = some j ↔
      (0 < j ∧ s.get? j = some c ∧ ∀ i, 0 < i → i < j → s.get? i ≠ some c) := by
  constructor
  · intro h
    obtain ⟨n, hn, rfl⟩ := indexOfFrom_one_some h
    rw [findIdxOfChar_eq_some_iff] at hn
    obtain ⟨hget, hmin⟩ := hn
    refine ⟨Nat.succ_pos n, ?_, ?_⟩
    · have h1 : n + 1 = 1 + n := by omega
      rw [h1, ← List.get?_drop s 1 n]
      exact hget
    · intro i hi0 hij
      obtain ⟨m, rfl⟩ : ∃ m, i = 1 + m := ⟨i - 1, by omega⟩
      rw [← List.get?_drop s 1 m]
      exact hmin m (by omega)
  · intro ⟨hj0, hget, hmin⟩
    have hfind : findIdxOfChar c (s.drop 1) = some (j - 1) := by
      rw [findIdxOfChar_eq_some_iff]
      constructor
      · rw [List.get?_drop s 1 (j - 1)]
        have : 1 + (j - 1) = j := by omega
        rw [this]
        exact hget
      · intro m hm
        rw [List.get?_drop s 1 m]
        exact hmin (1 + m) (by omega) (by omega)
    simp only [indexOfFrom, hfind, Option.map_some']
    congr 1
    omega

theorem no_comma_take_iff {s : List Char} {j : Nat} :
    indexOfFrom (s.take j) ',' 2 = none ↔
      ∀ i, 2 ≤ i → i < j → i < s.length → s.get? i ≠ some ',' := by
  rw [indexOfFrom, Option.map_eq_none', findIdxOfChar_eq_none_iff]
  constructor
  · intro h i h2 hij hilen hc
    apply h
    rw [List.mem_iff_get?]
    refine ⟨i - 2, ?_⟩
    rw [List.get?_drop, List.get?_take (by omega)]
    have : 2 + (i - 2) = i := by omega
    rw [this]
    exact hc
  · intro h hc
    rw [List.mem_iff_get?] at hc
    obtain ⟨m, hm⟩ := hc
    have hmlt : 2 + m < (s.take j).length := by
      by_contra hge
      rw [List.get?_drop] at hm
      rw [List.get?_eq_none.mpr (by omega)] at hm
      exact Option.noConfusion hm
    have hjlen : 2 + m < j ∧ 2 + m < s.length := by
      rw [List.length_take] at hmlt
      omega
    apply h (2 + m) (by omega) hjlen.1 hjlen.2
    rw [List.get?_drop, List.get?_take hjlen.1] at hm
    exact hm

theorem getStartType_array_iff (s : List Char) :
    getStartType s = StartType.array ↔
      (s.head? = some '[' ∧ ∃ j, 0 < j ∧ s.get? j = some ']' ∧
        (∀ i, 0 < i → i < j → s.get? i ≠ some ']') ∧
        (∀ i, 2 ≤ i → i < j → s.get? i ≠ some ',')) := by
  constructor
  · intro h
    have hhead : s.head? = some '[' := getStartType_array_head h
    have hlen : 0 < s.length := by
      cases s
      · simp at hhead
      · simp
    unfold getStartType at h
    rw [if_pos hlen, if_pos hhead] at h
    cases hidx : indexOfFrom s ']' 1 with
    | none => rw [hidx] at h; simp at h
    | some j =>
      rw [hidx] at h
      dsimp only at h
      by_cases hc : indexOfFrom (s.take j) ',' 2 = none
      · obtain ⟨hj0, hgetj, hminj⟩ := indexOfFrom_one_iff.mp hidx
        have hjlen : j < s.length := by
          by_contra hge
          rw [List.get?_eq_none.mpr (by omega)] at hgetj
          exact Option.noConfusion hgetj
        refine ⟨hhead, j, hj0, hgetj, hminj, ?_⟩
        intro i h2 hij
        exact (no_comma_take_iff.mp hc) i h2 hij (by omega)
      · rw [if_neg hc] at h
        simp at h
  · intro ⟨hhead, j, hj0, hgetj, hminj, hcomma⟩
    have hlen : 0 < s.length := by
      cases s
      · simp at hhead
      · simp
    have hidx : indexOfFrom s ']' 1 = some j := indexOfFrom_one_iff.mpr ⟨hj0, hgetj, hminj⟩
    unfold getStartType
    rw [if_pos hlen, if_pos hhead, hidx]
    dsimp only
    rw [if_pos (no_comma_take_iff.mpr (fun i h2 hij _ => hcomma i h2 hij))]

/-! ### Length bookkeeping for `getSubPaths` -/

theorem getSubPaths_foldl_len (frags : List (List Char)) :
    ∀ ap res : List (List Char),
      ((frags.foldl (fun (st : List (List Char) × List (List Char)) frag =>
        (st.1 ++ [frag], st.2 ++ [implodePath (st.1 ++ [frag])])) (ap, res)).2).length =
        res.length + frags.length := by
  induction frags with
  | nil => intro ap res; simp
  | cons a as ih =>
    intro ap res
    rw [List.foldl_cons]
    rw [ih (ap ++ [a]) (res ++ [implodePath (ap ++ [a])])]
    simp
    omega

theorem getSubPaths_length (p : List Char) (options : GetSubPathsOptions) :
    (getSubPaths p options).length =
      (if options.ignoreRoot then 0 else 1) + (explodePath p).length -
        (if options.ignoreFull then 1 else 0) := by
  unfold getSubPaths
  cases hroot : options.ignoreRoot with
  | false =>
    cases hfull : options.ignoreFull with
    | false =>
      simp only [if_false, Bool.false_eq_true, and_false, if_neg]
      · simp [getSubPaths_foldl_len]
        omega
    | true =>
      have hlen : (([([] : List Char)] : List (List Char)) ++
          ((explodePath p).foldl (fun (st : List (List Char) × List (List Char)) frag =>
            (st.1 ++ [frag], st.2 ++ [implodePath (st.1 ++ [frag])])) ([], [])).2).length =
          1 + (explodePath p).length := by
        simp [getSubPaths_foldl_len]
        omega
      simp only [Bool.false_eq_true, if_false, hfull, and_true]
      rw [if_pos (by rw [hlen]; omega)]
      rw [List.length_dropLast, hlen]
      simp
  | true =>
    cases hfull : options.ignoreFull with
    | false =>
      simp only [if_true, Bool.false_eq_true, and_false, if_neg]
      · simp [getSubPaths_foldl_len]
    | true =>
      have hlen : ((([] : List (List Char))) ++
          ((explodePath p).foldl (fun (st : List (List Char) × List (List Char)) frag =>
            (st.1 ++ [frag], st.2 ++ [implodePath (st.1 ++ [frag])])) ([], [])).2).length =
          (explodePath p).length := by
        simp [getSubPaths_foldl_len]
      simp only [if_true, hfull, and_true]
      cases hn : (explodePath p).length with
      | zero =>
        rw [if_neg (by rw [hlen, hn]; omega)]
        rw [hlen, hn]
      | succ m =>
        rw [if_pos (by rw [hlen, hn]; omega)]
        rw [List.length_dropLast, hlen, hn]
        simp

/-! ### `jsSplice` and `removePathLevels` bounds -/

theorem implodePath_nil : implodePath [] = [] := rfl

theorem jsSplice_len_all {α : Type} (l : List α) (k : Nat) (hk : l.length ≤ k) :
    jsSplice l 0 k = [] := by
  unfold jsSplice jsSpliceActualStart
  simp [List.drop_eq_nil_of_le hk]

theorem jsSpliceActualStart_of_neg {len : Nat} {start : Int} (h : start < 0) :
    jsSpliceActualStart len start = (max ((len : Int) + start) 0).toNat := by
  unfold jsSpliceActualStart
  rw [if_pos h]

theorem jsSpliceActualStart_of_nonneg {len : Nat} {start : Int} (h : ¬ start < 0) :
    jsSpliceActualStart len start = min start.toNat len := by
  unfold jsSpliceActualStart
  rw [if_neg h]

theorem jsSplice_neg_start {α : Type} (l : List α) (k : Nat)
    (hk : 2 * l.length ≤ k) : jsSplice l ((l.length : Int) - (k : Int)) k = [] := by
  unfold jsSplice
  by_cases hneg : ((l.length : Int) - (k : Int)) < 0
  · rw [jsSpliceActualStart_of_neg hneg]
    have ha : (l.length : Int) + ((l.length : Int) - (k : Int)) ≤ 0 := by omega
    rw [max_eq_right ha]
    have hlk : l.length ≤ k := by omega
    simp [List.drop_eq_nil_of_le hlk]
  · rw [jsSpliceActualStart_of_nonneg hneg]
    have hn0 : l.length = 0 := by omega
    have hl : l = [] := List.length_eq_zero.mp hn0
    subst hl
    simp

theorem removePathLevels_count_exact (p : List Char) :
    removePathLevels p { count := (explodePath p).length } = [] := by
  simp only [removePathLevels, if_true]
  rw [Int.sub_self,
    jsSplice_len_all (explodePath p) (explodePath p).length (Nat.le_refl _)]
  rfl

theorem removePathLevels_big_count (p : List Char) (k : Nat)
    (hk : 2 * (explodePath p).length ≤ k) :
    removePathLevels p { count := k } = [] := by
  simp only [removePathLevels, if_true]
  rw [jsSplice_neg_start (explodePath p) k hk]
  rfl

/-! ### Dropping `unknown` fragments in `implodePathVal` -/

theorem foldl_filter_skip {α β : Type} (step : β → α → β) (keep : α → Bool)
    (hskip : ∀ b a, keep a = false → step b a = b) :
    ∀ (L : List α) (acc : β), L.foldl step acc = (L.filter keep).foldl step acc := by
  intro L
  induction L with
  | nil => intro acc; rfl
  | cons f L ih =>
    intro acc
    rw [List.foldl_cons, List.filter_cons]
    cases hf : keep f with
    | false =>
      rw [hskip acc f hf]
      simp only [Bool.false_eq_true, if_false]
      exact ih acc
    | true =>
      rw [if_pos rfl, List.foldl_cons]
      exact ih (step acc f)

theorem implodePathVal_drop_unknown (L : List JSValue) :
    implodePathVal L =
      implodePathVal (L.filter (fun f => decide (getStartTypeVal f ≠ StartType.unknown))) := by
  unfold implodePathVal
  apply foldl_filter_skip
  intro b a ha
  cases a with
  | vstr s =>
    have hs : getStartType s = StartType.unknown := by
      by_contra hne
      simp [getStartTypeVal, hne] at ha
    dsimp only
    rw [hs]
  | vundefined => rfl
  | vnull => rfl
  | vbool b2 => rfl
  | vnum n => rfl
  | varr elems => rfl
  | vobj fields => rfl

theorem getStartTypeVal_unknown_iff (v : JSValue) :
    getStartTypeVal v = StartType.unknown ↔
      (v = JSValue.vstr [] ∨ ∀ s, v ≠ JSValue.vstr s) := by
  cases v with
  | vstr s =>
    simp only [getStartTypeVal]
    rw [getStartType_unknown_iff]
    constructor
    · intro h
      exact Or.inl (by rw [h])
    · intro h
      rcases h with h | h
      · simpa using h
      · exact absurd rfl (h s)
  | vundefined => exact iff_of_true rfl (Or.inr (fun s => by simp))
  | vnull => exact iff_of_true rfl (Or.inr (fun s => by simp))
  | vbool b => exact iff_of_true rfl (Or.inr (fun s => by simp))
  | vnum n => exact iff_of_true rfl (Or.inr (fun s => by simp))
  | varr elems => exact iff_of_true rfl (Or.inr (fun s => by simp))
  | vobj fields => exact iff_of_true rfl (Or.inr (fun s => by simp))

/-! ### Claim theorems -/

/-- Claim C1: exploding the path lorem.ipsum[2][1].foo yields exactly the
fragment sequence lorem, ipsum, [2], [1], foo, in that order. -/
theorem c1_explodePath_literal :
    explodePath ("lorem.ipsum[2][1].foo".toList) =
      ["lorem".toList, "ipsum".toList, "[2]".toList, "[1]".toList, "foo".toList] := by
  decide

/-- Claim C2: for every path string, exploding the reconstituted
(imploded) fragment sequence returns exactly the original fragment
sequence; the round trip explode-implode-explode is stable for all inputs,
in particular for every path in canonical dot/bracket syntax. -/
theorem c2_explode_implode_explode (p : List Char) :
    explodePath (implodePath (explodePath p)) = explodePath p :=
  explode_implode_id (fun _ hx => goodFrag_of_mem_explodePath hx)

/-- Claim C4 counterexample: removePathLevels on the path a.b.c with count 1
returns the empty string for both terminations — not a.b and not b.c —
because explodePath discards every fragment of length one, leaving no
fragments at all for a.b.c. -/
theorem c4_removePathLevels_counterexample :
    removePathLevels ("a.b.c".toList) { count := 1 } ≠ "a.b".toList ∧
    removePathLevels ("a.b.c".toList) { count := 1, termination := "start".toList } ≠
      "b.c".toList := by
  decide

/-- Claim C4 amended: on a.b.c both calls return the empty string (the
single-character fragments a, b, c are all discarded by explodePath); on the
two-character analogue aa.bb.cc the claim's intent holds: count 1 with
termination end gives aa.bb, with termination start gives bb.cc. -/
theorem c4_removePathLevels_amended :
    removePathLevels ("a.b.c".toList) { count := 1 } = [] ∧
    removePathLevels ("a.b.c".toList) { count := 1, termination := "start".toList } = [] ∧
    removePathLevels ("aa.bb.cc".toList) { count := 1 } = "aa.bb".toList ∧
    removePathLevels ("aa.bb.cc".toList) { count := 1, termination := "start".toList } =
      "bb.cc".toList := by
  decide

/-- Claim C5 counterexample: replacePathArraysWithString on a[0].b[1] with
the empty replacement returns the empty string, not a.b, because explodePath
discards the single-character object fragments a and b before the map. -/
theorem c5_replaceArrays_counterexample :
    replacePathArraysWithString ("a[0].b[1]".toList) { string := [] } ≠ "a.b".toList := by
  decide

/-- Claim C5 amended: on a[0].b[1] the result is the empty string (fragments
a and b are discarded, the two array fragments map to the empty replacement
and are then dropped as unknown by implodePath); on the two-character
analogue aa[0].bb[1] the claim's intent holds and the result is aa.bb. -/
theorem c5_replaceArrays_amended :
    replacePathArraysWithString ("a[0].b[1]".toList) { string := [] } = [] ∧
    replacePathArraysWithString ("aa[0].bb[1]".toList) { string := [] } = "aa.bb".toList := by
  decide

/-- Claim C6 counterexample: for ab.cd.ef (three fragments) a count of 4
exceeds the fragment count, yet the result is ab.cd, not the empty string:
splice receives the negative start 3 - 4 = -1, which JS clamps to index 2,
so only the final fragment is removed. -/
theorem c6_removePathLevels_counterexample :
    (explodePath ("ab.cd.ef".toList)).length ≤ 4 ∧
    removePathLevels ("ab.cd.ef".toList) { count := 4 } = "ab.cd".toList ∧
    removePathLevels ("ab.cd.ef".toList) { count := 4 } ≠ [] := by
  decide

/-- Claim C6 amended: with the default termination end, a count equal to the
number of fragments empties the path, and so does any count of at least
twice the number of fragments; but counts strictly between n and 2n keep the
first 2n - count fragments, so the original for-all-counts claim fails. -/
theorem c6_removePathLevels_amended :
    (∀ p : List Char, removePathLevels p { count := (explodePath p).length } = []) ∧
    (∀ (p : List Char) (k : Nat), 2 * (explodePath p).length ≤ k →
      removePathLevels p { count := k } = []) :=
  ⟨removePathLevels_count_exact, removePathLevels_big_count⟩

/-- Witness for the amended C6 at the concrete path aa.bb (two fragments):
count 2 and count 5 both yield the empty string. -/
theorem c6_removePathLevels_amended_witness :
    removePathLevels ("aa.bb".toList) { count := 2 } = [] ∧
    removePathLevels ("aa.bb".toList) { count := 5 } = [] := by
  constructor
  · have h := c6_removePathLevels_amended.1 ("aa.bb".toList)
    have hl : (explodePath ("aa.bb".toList)).length = 2 := by decide
    rw [hl] at h
    exact h
  · exact c6_removePathLevels_amended.2 ("aa.bb".toList) 5 (by decide)

/-- Claim C3: getStartType classifies a string as array exactly when its
first character is an opening bracket, a closing bracket exists at an index
greater than 0, and the substring up to that (first) closing bracket has no
comma at an index of at least 2; every other non-empty string is object, the
empty string and every non-string value are unknown; and the
comma-containing input bracket-1-comma-2-bracket is classified object. -/
theorem c3_getStartType_rule :
    (∀ s : List Char, getStartType s = StartType.array ↔
      (s.head? = some '[' ∧ ∃ j, 0 < j ∧ s.get? j = some ']' ∧
        (∀ i, 0 < i → i < j → s.get? i ≠ some ']') ∧
        (∀ i, 2 ≤ i → i < j → s.get? i ≠ some ','))) ∧
    (∀ s : List Char, s ≠ [] → getStartType s ≠ StartType.array →
      getStartType s = StartType.object) ∧
    getStartType [] = StartType.unknown ∧
    (∀ v : JSValue, (∀ s, v ≠ JSValue.vstr s) → getStartTypeVal v = StartType.unknown) ∧
    getStartType ("[1,2]".toList) = StartType.object := by
  refine ⟨getStartType_array_iff, fun s h ha => getStartType_object_of_ne h ha, rfl, ?_, by decide⟩
  intro v hv
  cases v with
  | vstr s => exact absurd rfl (hv s)
  | vundefined => rfl
  | vnull => rfl
  | vbool b => rfl
  | vnum n => rfl
  | varr elems => rfl
  | vobj fields => rfl

/-- Witness for C3 at concrete inputs: the fragment two-in-brackets is
array via the characterisation, the fragment ab is object, and a number is
unknown. -/
theorem c3_getStartType_rule_witness :
    getStartType ("[2]".toList) = StartType.array ∧
    getStartType ("ab".toList) = StartType.object ∧
    getStartTypeVal (JSValue.vnum 3) = StartType.unknown := by
  refine ⟨(c3_getStartType_rule.1 ("[2]".toList)).mpr ⟨by decide, 2, by decide, by decide, ?_, ?_⟩,
    c3_getStartType_rule.2.1 ("ab".toList) (by decide) (by decide),
    c3_getStartType_rule.2.2.2.1 (JSValue.vnum 3) (fun s => by simp)⟩
  · intro i h1 h2
    have hi : i = 1 := by omega
    subst hi
    decide
  · intro i h1 h2
    omega

/-- Claim C7: implodePathVal silently drops every fragment classified
unknown — imploding any fragment sequence equals imploding the sequence with
its unknown fragments removed, with no error — and a fragment classifies as
unknown exactly when it is the empty string or not a string at all. -/
theorem c7_implode_drops_unknown :
    (∀ frags : List JSValue,
      implodePathVal frags =
        implodePathVal (frags.filter
          (fun f => decide (getStartTypeVal f ≠ StartType.unknown)))) ∧
    (∀ v : JSValue, getStartTypeVal v = StartType.unknown ↔
      (v = JSValue.vstr [] ∨ ∀ s, v ≠ JSValue.vstr s)) :=
  ⟨implodePathVal_drop_unknown, getStartTypeVal_unknown_iff⟩

/-- Witness for C7 on a concrete sequence holding a null, an empty string,
and two object fragments. -/
theorem c7_implode_drops_unknown_witness :
    implodePathVal [JSValue.vstr ("aa".toList), JSValue.vnull, JSValue.vstr [],
        JSValue.vstr ("bb".toList)] =
      implodePathVal ([JSValue.vstr ("aa".toList), JSValue.vnull, JSValue.vstr [],
        JSValue.vstr ("bb".toList)].filter
          (fun f => decide (getStartTypeVal f ≠ StartType.unknown))) :=
  c7_implode_drops_unknown.1
    [JSValue.vstr ("aa".toList), JSValue.vnull, JSValue.vstr [], JSValue.vstr ("bb".toList)]

/-- Claim C8 counterexample: for the empty path, which has no fragments,
enabling both ignoreRoot and ignoreFull yields length 0, while the claim's
one-less-per-flag accounting demands 0 + 1 - 1 - 1 = -1; the flags cannot
each remove an entry. -/
theorem c8_getSubPaths_counterexample :
    ((getSubPaths ("".toList) { ignoreRoot := true, ignoreFull := true }).length : Int) ≠
      ((explodePath ("".toList)).length : Int) + 1 - 1 - 1 := by
  decide

/-- Claim C8 amended: with no flags the subpath count is the fragment count
plus one, and each single flag lowers it by exactly one; with both flags the
count is the fragment count minus one clamped at zero, so for a path with no
fragments the two flags together remove only the one existing entry. -/
theorem c8_getSubPaths_amended (p : List Char) :
    (getSubPaths p {}).length = (explodePath p).length + 1 ∧
    (getSubPaths p { ignoreRoot := true }).length = (explodePath p).length ∧
    (getSubPaths p { ignoreFull := true }).length = (explodePath p).length ∧
    (getSubPaths p { ignoreRoot := true, ignoreFull := true }).length =
      (explodePath p).length + 1 - 2 := by
  refine ⟨?_, ?_, ?_, ?_⟩ <;> rw [getSubPaths_length] <;> simp <;> omega

/-! ### `get` / `set` error-path lemmas -/

theorem isNonEmptyString_eq_false {v : JSValue} (h : isStringVal v = false) :
    isNonEmptyString v = false := by
  cases v with
  | vstr s => simp [isStringVal] at h
  | vundefined => rfl
  | vnull => rfl
  | vbool b => rfl
  | vnum n => rfl
  | varr elems => rfl
  | vobj fields => rfl

theorem isNonEmptyArray_eq_false {v : JSValue} (h : isArrVal v = false) :
    isNonEmptyArray v = false := by
  cases v with
  | varr elems => simp [isArrVal] at h
  | vundefined => rfl
  | vnull => rfl
  | vbool b => rfl
  | vnum n => rfl
  | vstr s => rfl
  | vobj fields => rfl

theorem get_guard {lodashGet : JSValue → JSValue → JSValue → JSValue}
    {collection path def_ : JSValue} (h1 : isStringVal path = false)
    (h2 : isArrVal path = false) :
    CollectionPathHelper.get lodashGet collection path def_ = Except.ok collection := by
  unfold CollectionPathHelper.get
  rw [isNonEmptyString_eq_false h1, isNonEmptyArray_eq_false h2]
  rfl

theorem set_obj_not_zero {lodashSet : JSValue → JSValue → JSValue → JSValue}
    {collection value : JSValue} {fields : List (List Char × JSValue)}
    (h : jsStrictEqNum ((lookupField fields lengthKey).getD JSValue.vundefined) 0 = false) :
    CollectionPathHelper.set lodashSet collection (JSValue.vobj fields) value = Except.ok collection := by
  unfold CollectionPathHelper.set jsLengthProp
  dsimp only
  rw [h]
  rfl

theorem set_obj_zero {lodashSet : JSValue → JSValue → JSValue → JSValue}
    {collection value : JSValue} {fields : List (List Char × JSValue)}
    (h : jsStrictEqNum ((lookupField fields lengthKey).getD JSValue.vundefined) 0 = true) :
    CollectionPathHelper.set lodashSet collection (JSValue.vobj fields) value = Except.ok value := by
  unfold CollectionPathHelper.set jsLengthProp
  dsimp only
  rw [h]
  rfl

/-- Claim C9 counterexample: a null path is neither a string nor an array,
yet set does not return the collection — it throws a TypeError, because its
first statement reads path.length before any type guard. -/
theorem c9_set_null_counterexample :
    isStringVal JSValue.vnull = false ∧ isArrVal JSValue.vnull = false ∧
    CollectionPathHelper.set (fun collection _ _ => collection) (JSValue.vnum 0) JSValue.vnull (JSValue.vnum 1) =
      Except.error () :=
  ⟨rfl, rfl, rfl⟩

/-- Claim C9 amended: get returns the collection unchanged, without
throwing, for every non-string/non-array path; set does so for numbers,
booleans, and objects whose length property is not strictly equal to 0, but
it throws a TypeError when the path is null or undefined, and it returns
value (not the collection) when path.length is strictly equal to 0. -/
theorem c9_get_set_amended :
    (∀ (lodashGet : JSValue → JSValue → JSValue → JSValue)
        (collection path def_ : JSValue), isStringVal path = false → isArrVal path = false →
      CollectionPathHelper.get lodashGet collection path def_ = Except.ok collection) ∧
    (∀ (lodashSet : JSValue → JSValue → JSValue → JSValue) (collection value : JSValue),
      CollectionPathHelper.set lodashSet collection JSValue.vnull value = Except.error () ∧
      CollectionPathHelper.set lodashSet collection JSValue.vundefined value = Except.error ()) ∧
    (∀ (lodashSet : JSValue → JSValue → JSValue → JSValue)
        (collection value : JSValue) (n : Int),
      CollectionPathHelper.set lodashSet collection (JSValue.vnum n) value = Except.ok collection) ∧
    (∀ (lodashSet : JSValue → JSValue → JSValue → JSValue)
        (collection value : JSValue) (b : Bool),
      CollectionPathHelper.set lodashSet collection (JSValue.vbool b) value = Except.ok collection) ∧
    (∀ (lodashSet : JSValue → JSValue → JSValue → JSValue) (collection value : JSValue)
        (fields : List (List Char × JSValue)),
      jsStrictEqNum ((lookupField fields lengthKey).getD JSValue.vundefined) 0 = false →
      CollectionPathHelper.set lodashSet collection (JSValue.vobj fields) value = Except.ok collection) ∧
    (∀ (lodashSet : JSValue → JSValue → JSValue → JSValue) (collection value : JSValue)
        (fields : List (List Char × JSValue)),
      jsStrictEqNum ((lookupField fields lengthKey).getD JSValue.vundefined) 0 = true →
      CollectionPathHelper.set lodashSet collection (JSValue.vobj fields) value = Except.ok value) :=
  ⟨fun _ _ _ _ h1 h2 => get_guard h1 h2,
   fun _ _ _ => ⟨rfl, rfl⟩,
   fun _ _ _ _ => rfl,
   fun _ _ _ _ => rfl,
   fun _ _ _ _ h => set_obj_not_zero h,
   fun _ _ _ _ h => set_obj_zero h⟩

/-- Witness for the amended C9: a null path into get returns the
collection; a numeric path into set returns the collection; an object path
with a zero length property into set returns the value. -/
theorem c9_get_set_amended_witness :
    CollectionPathHelper.get (fun _ _ d => d) (JSValue.vnum 5) JSValue.vnull (JSValue.vnum 7) =
      Except.ok (JSValue.vnum 5) ∧
    CollectionPathHelper.set (fun c _ _ => c) (JSValue.vnum 5) (JSValue.vnum 3) (JSValue.vnum 7) =
      Except.ok (JSValue.vnum 5) ∧
    CollectionPathHelper.set (fun c _ _ => c) (JSValue.vnum 5)
        (JSValue.vobj [(lengthKey, JSValue.vnum 0)]) (JSValue.vnum 7) = Except.ok (JSValue.vnum 7) :=
  ⟨c9_get_set_amended.1 _ (JSValue.vnum 5) JSValue.vnull (JSValue.vnum 7) rfl rfl,
   c9_get_set_amended.2.2.1 _ (JSValue.vnum 5) (JSValue.vnum 7) 3,
   c9_get_set_amended.2.2.2.2.2 _ (JSValue.vnum 5) (JSValue.vnum 7)
     [(lengthKey, JSValue.vnum 0)] (by decide)⟩

/-- Claim C10: get never consults its third argument def — its result is the
same for every def — and whenever both the direct lookup and the
explode-then-retry lookup return the internal sentinel, get returns the
literal string undefined rather than def. -/
theorem c10_get_never_returns_def :
    (∀ (lodashGet : JSValue → JSValue → JSValue → JSValue)
        (collection path d1 d2 : JSValue),
      CollectionPathHelper.get lodashGet collection path d1 =
        CollectionPathHelper.get lodashGet collection path d2) ∧
    (∀ (lodashGet : JSValue → JSValue → JSValue → JSValue)
        (collection : JSValue) (s : List Char) (d : JSValue), s ≠ [] →
      (∀ q : JSValue,
        lodashGet collection q (JSValue.vstr undefSentinel) = JSValue.vstr undefSentinel) →
      CollectionPathHelper.get lodashGet collection (JSValue.vstr s) d =
        Except.ok (JSValue.vstr undefSentinel)) := by
  constructor
  · intro lg c p d1 d2
    rfl
  · intro lg c s d hs hall
    unfold CollectionPathHelper.get
    have h1 : isNonEmptyString (JSValue.vstr s) = true := by
      simp [isNonEmptyString, hs]
    rw [h1]
    have hpa : ∃ t, getDirectPathArg (JSValue.vstr s) = JSValue.vstr t := by
      unfold getDirectPathArg
      by_cases hd : (isStringVal (JSValue.vstr s) && jsStartsWithDot (JSValue.vstr s)) = true
      · rw [if_pos hd]
        exact ⟨replaceFirst s ['.'], rfl⟩
      · rw [if_neg hd]
        exact ⟨s, rfl⟩
    obtain ⟨t, ht⟩ := hpa
    rw [ht, hall (JSValue.vstr t)]
    unfold getRetry
    have hu : isUndefSentinel (JSValue.vstr undefSentinel) = true := by
      simp [isUndefSentinel]
    rw [hu]
    simp only [if_true]
    rw [hall]
    simp

/-- Witness for C10: with a lookup that always returns its default, get on a
one-character path returns the sentinel string undefined, whatever def is. -/
theorem c10_get_never_returns_def_witness :
    CollectionPathHelper.get (fun _ _ d => d) JSValue.vnull (JSValue.vstr ("a".toList))
      (JSValue.vnum 7) =
      Except.ok (JSValue.vstr undefSentinel) :=
  c10_get_never_returns_def.2 (fun _ _ d => d) JSValue.vnull ("a".toList) (JSValue.vnum 7)
    (by decide) (fun _ => rfl)

/-- Witness for C2 at the concrete path aa[0].bb. -/
theorem c2_explode_implode_explode_witness :
    explodePath (implodePath (explodePath ("aa[0].bb".toList))) =
      explodePath ("aa[0].bb".toList) :=
  c2_explode_implode_explode ("aa[0].bb".toList)

/-- Witness for the amended C8 at the concrete path lorem.ipsum. -/
theorem c8_getSubPaths_amended_witness :
    (getSubPaths ("lorem.ipsum".toList) {}).length =
      (explodePath ("lorem.ipsum".toList)).length + 1 :=
  (c8_getSubPaths_amended ("lorem.ipsum".toList)).1
